import Mathlib

/-!
Verification of the Mind Garden habit streak / completion-rate logic.

Calendar dates are modelled as integers (days since the Unix epoch, or, for
raw timestamps, milliseconds).  Every implementation in the repository
normalizes a stored timestamp to day granularity (`toDateString`, the
`${y}-${m}-${d}` key of the calendar widget, or `setUTCHours(0,0,0,0)`)
before comparing, so one integer per calendar day is a faithful model of a
normalized date.  Machine numbers in the source are IEEE doubles holding
small integers, modelled as `Nat`/`Int`.
-/

/-- One calendar-day log record for one habit (model of the `HabitLog` rows
fed to the streak code: `{ date, completed }`).  `date` is the normalized
calendar day as an integer. -/
structure HabitLogEntry where
  date : Int
  completed : Bool
  deriving DecidableEq

/-- The set of completed dates the source builds before walking:
`new Set(logs.filter((l) => l.completed).map((l) => new Date(l.date).toDateString()))`
(dashboard stats route, export route, calendar widget).  Modelled as the list
of dates of completed entries; membership in the list models `Set.has`. -/
def completedDates (logs : List HabitLogEntry) : List Int :=
  (logs.filter (fun l => l.completed)).map (fun l => l.date)

/-- Day-membership test: true iff an entry exists for that date with
`completed = true`.  This is the `completedDates.has(...)` test every
streak loop in the source performs. -/
def isCompletedOn (logs : List HabitLogEntry) (d : Int) : Bool :=
  (completedDates logs).contains d

/-- The streak loop of `calculateStreak` (export route) and of the calendar
widget's `currentStreak`:

```
for (let i = 0; i < 365; i++) {
  const checkDate = new Date(today);
  checkDate.setDate(today.getDate() - i);
  if (completedDates.has(checkDate)) { streak++; }
  else if (i > 0) { break; }
}
```

`fuel` is the number of loop iterations left (365 at entry), `i` the loop
index, `streak` the accumulator; the day examined at index `i` is
`today - i`. -/
def streakGo (p : Int → Bool) (today : Int) : Nat → Nat → Nat → Nat
  | 0, _, streak => streak
  | fuel + 1, i, streak =>
    if p (today - (i : Int)) then streakGo p today fuel (i + 1) (streak + 1)
    else if 0 < i then streak
    else streakGo p today fuel (i + 1) streak

/-- `calculateStreak` of the export route (and, identically, the calendar
widget's `currentStreak`): build the completed-date set, then walk backward
from `today` with the capped loop. -/
def calculateStreak (logs : List HabitLogEntry) (today : Int) : Nat :=
  streakGo (fun d => isCompletedOn logs d) today 365 0 0

/-- The streak loop of the dashboard stats route (`habitStreaks`), which
keeps an explicit `checkDate` cursor instead of recomputing `today - i`:

```
let streak = 0;
const checkDate = new Date(today);
for (let i = 0; i < 365; i++) {
  if (completedDates.has(checkDate)) { streak++; checkDate--; }
  else if (i > 0) { break; }
  else { checkDate--; }
}
``` -/
def dashGo (p : Int → Bool) : Nat → Int → Nat → Nat → Nat
  | 0, _, _, streak => streak
  | fuel + 1, checkDate, i, streak =>
    if p checkDate then dashGo p fuel (checkDate - 1) (i + 1) (streak + 1)
    else if 0 < i then streak
    else dashGo p fuel (checkDate - 1) (i + 1) streak

/-- The per-habit streak of the dashboard stats route. -/
def dashboardStreak (logs : List HabitLogEntry) (today : Int) : Nat :=
  dashGo (fun d => isCompletedOn logs d) 365 today 0 0

/-- A run of `n` consecutive completed days `0, 1, ..., n-1` (used as a
concrete input exercising the 365-iteration cap). -/
def fullRun (n : Nat) : List HabitLogEntry :=
  (List.range n).map (fun (j : Nat) => { date := (j : Int), completed := true })

example : calculateStreak [⟨0, true⟩, ⟨1, true⟩] 2 = 2 := by decide
example : calculateStreak [⟨0, true⟩, ⟨1, true⟩, ⟨2, false⟩] 2 = 2 := by decide
example : calculateStreak [] 17 = 0 := by decide
example : dashboardStreak [⟨0, true⟩] 0 = 1 := by decide

/-- Membership in the completed-date set, spelled out. -/
lemma mem_completedDates {logs : List HabitLogEntry} {d : Int} :
    d ∈ completedDates logs ↔ ∃ l, l ∈ logs ∧ l.completed = true ∧ l.date = d := by
  simp only [completedDates, List.mem_map, List.mem_filter]
  constructor
  · rintro ⟨l, ⟨hl, hc⟩, hd⟩
    exact ⟨l, hl, hc, hd⟩
  · rintro ⟨l, hl, hc, hd⟩
    exact ⟨l, ⟨hl, hc⟩, hd⟩

/-- `isCompletedOn` holds exactly when a completed entry with that date is in
the log list. -/
lemma isCompletedOn_iff {logs : List HabitLogEntry} {d : Int} :
    isCompletedOn logs d = true ↔ ∃ l, l ∈ logs ∧ l.completed = true ∧ l.date = d := by
  rw [isCompletedOn, ← mem_completedDates]
  constructor
  · exact fun h => List.mem_of_elem_eq_true h
  · exact fun h => List.elem_eq_true_of_mem h

/-- On days at or before the cutoff, restricting the log list to entries
dated at or before the cutoff does not change `isCompletedOn`. -/
lemma isCompletedOn_filter_le (logs : List HabitLogEntry) (ref d : Int) (hd : d ≤ ref) :
    isCompletedOn (logs.filter (fun l => l.date ≤ ref)) d = isCompletedOn logs d := by
  rw [Bool.eq_iff_iff, isCompletedOn_iff, isCompletedOn_iff]
  constructor
  · rintro ⟨l, hl, hc, hdate⟩
    exact ⟨l, (List.mem_filter.mp hl).1, hc, hdate⟩
  · rintro ⟨l, hl, hc, hdate⟩
    refine ⟨l, List.mem_filter.mpr ⟨hl, ?_⟩, hc, hdate⟩
    simp [hdate, hd]

/-- The loop counts a block of consecutive completed days: if the `k` days at
offsets `i, i+1, ..., i+k-1` are all completed and the block ends (either the
fuel runs out exactly at `k`, or day `i+k` is incomplete), the loop, entered
past the skip-allowed index (`0 < i`), adds exactly `k` to the accumulator. -/
lemma streakGo_count (p : Int → Bool) (today : Int) :
    ∀ (fuel i s k : Nat), 0 < i → k ≤ fuel →
      (∀ j, j < k → p (today - ((i + j : Nat) : Int)) = true) →
      (k = fuel ∨ p (today - ((i + k : Nat) : Int)) = false) →
      streakGo p today fuel i s = s + k := by
  intro fuel
  induction fuel with
  | zero =>
    intro i s k _ hk _ _
    interval_cases k
    simp [streakGo]
  | succ fuel ih =>
    intro i s k hi hk hall hstop
    cases k with
    | zero =>
      have hp : p (today - (i : Int)) = false := by
        rcases hstop with h | h
        · omega
        · simpa using h
      simp [streakGo, hp, hi]
    | succ k =>
      have hp : p (today - (i : Int)) = true := by
        have h := hall 0 (Nat.succ_pos k)
        simpa using h
      have hall' : ∀ j, j < k → p (today - ((i + 1 + j : Nat) : Int)) = true := by
        intro j hj
        have e : i + 1 + j = i + (j + 1) := by omega
        rw [e]
        exact hall (j + 1) (by omega)
      have hstop' : k = fuel ∨ p (today - ((i + 1 + k : Nat) : Int)) = false := by
        rcases hstop with h | h
        · exact Or.inl (by omega)
        · right
          have e : i + 1 + k = i + (k + 1) := by omega
          rw [e]
          exact h
      have hrec := ih (i + 1) (s + 1) k (by omega) (by omega) hall' hstop'
      simp only [streakGo, hp, if_true]
      rw [hrec]
      omega

/-- Entered past the skip-allowed index, the loop either adds nothing or adds
`k + 1` increments whose deepest counted day, `today - (i + k)`, is completed. -/
lemma streakGo_deepest (p : Int → Bool) (today : Int) :
    ∀ (fuel i s : Nat), 0 < i →
      streakGo p today fuel i s = s ∨
      ∃ k, k < fuel ∧ streakGo p today fuel i s = s + (k + 1) ∧
        p (today - ((i + k : Nat) : Int)) = true := by
  intro fuel
  induction fuel with
  | zero =>
    intro i s _
    exact Or.inl rfl
  | succ fuel ih =>
    intro i s hi
    by_cases hp : p (today - (i : Int)) = true
    · simp only [streakGo, hp, if_true]
      rcases ih (i + 1) (s + 1) (by omega) with h | ⟨k, hk, heq, hpk⟩
      · right
        refine ⟨0, by omega, by omega, by simpa using hp⟩
      · right
        refine ⟨k + 1, by omega, by omega, ?_⟩
        have e : i + (k + 1) = i + 1 + k := by omega
        rw [e]
        exact hpk
    · left
      simp only [streakGo]
      rw [if_neg hp, if_pos hi]

/-- The loop only looks at the predicate on days `today - i`; two predicates
agreeing on all such days give equal loops. -/
lemma streakGo_congrOn (p q : Int → Bool) (today : Int)
    (h : ∀ i : Nat, p (today - (i : Int)) = q (today - (i : Int))) :
    ∀ fuel i s, streakGo p today fuel i s = streakGo q today fuel i s := by
  intro fuel
  induction fuel with
  | zero => intro i s; rfl
  | succ fuel ih =>
    intro i s
    simp only [streakGo, h i]
    by_cases hq : q (today - (i : Int)) = true
    · rw [if_pos hq, if_pos hq, ih]
    · rw [if_neg hq, if_neg hq]
      by_cases hi : 0 < i
      · rw [if_pos hi, if_pos hi]
      · rw [if_neg hi, if_neg hi, ih]

/-- Unfolding the first loop iteration of `calculateStreak`: day `today`
either counts (and the walk continues from offset 1 with one point) or is
skipped (and the walk continues from offset 1 with no points). -/
lemma calculateStreak_eq_if (logs : List HabitLogEntry) (today : Int) :
    calculateStreak logs today =
      if isCompletedOn logs today
      then streakGo (fun d => isCompletedOn logs d) today 364 1 1
      else streakGo (fun d => isCompletedOn logs d) today 364 1 0 := by
  show streakGo (fun d => isCompletedOn logs d) today (364 + 1) 0 0 = _
  rw [streakGo]
  simp only [Nat.cast_zero, sub_zero, zero_add, lt_self_iff_false, if_false]

/-- The dashboard loop's explicit cursor always equals `today - i`, so the two
loop shapes compute the same value. -/
lemma dashGo_eq_streakGo (p : Int → Bool) (today : Int) :
    ∀ (fuel i s : Nat), dashGo p fuel (today - (i : Int)) i s = streakGo p today fuel i s := by
  intro fuel
  induction fuel with
  | zero => intro i s; rfl
  | succ fuel ih =>
    intro i s
    have e : today - (i : Int) - 1 = today - ((i + 1 : Nat) : Int) := by push_cast; ring
    simp only [dashGo, streakGo, e, ih (i + 1)]

/-- The dashboard stats route and the export route compute the same streak. -/
lemma dashboardStreak_eq_calculateStreak (logs : List HabitLogEntry) (today : Int) :
    dashboardStreak logs today = calculateStreak logs today := by
  show dashGo _ 365 today 0 0 = streakGo _ today 365 0 0
  have h := dashGo_eq_streakGo (fun d => isCompletedOn logs d) today 365 0 0
  simpa using h

/-- With no entries at all the streak is zero. -/
lemma calculateStreak_nil (today : Int) : calculateStreak [] today = 0 := by
  have hnone : ∀ d : Int, isCompletedOn [] d = false := fun d => rfl
  rw [calculateStreak_eq_if, hnone]
  simp only [Bool.false_eq_true, if_false]
  have h := streakGo_count (fun d => isCompletedOn [] d) today 364 1 0 0
    (by omega) (by omega) (by omega) (Or.inr (hnone _))
  simpa using h

/-- Day membership over a full run `0, ..., n-1` of completed days. -/
lemma isCompletedOn_fullRun (n : Nat) (d : Int) :
    isCompletedOn (fullRun n) d = decide (0 ≤ d ∧ d < (n : Int)) := by
  rw [Bool.eq_iff_iff, isCompletedOn_iff, decide_eq_true_iff]
  constructor
  · rintro ⟨l, hl, -, hdate⟩
    obtain ⟨j, hj, hEq⟩ := List.mem_map.mp hl
    rw [List.mem_range] at hj
    subst hEq
    rw [← hdate]
    refine ⟨Int.natCast_nonneg j, ?_⟩
    show (j : Int) < (n : Int)
    exact_mod_cast hj
  · rintro ⟨h0, hn⟩
    lift d to ℕ using h0 with j
    refine ⟨{ date := (j : Int), completed := true }, ?_, rfl, rfl⟩
    exact List.mem_map.mpr ⟨j, List.mem_range.mpr (by exact_mod_cast hn), rfl⟩

/-- C1 (amended): skip-today rule, within the 365-iteration cap.  For every
entry set, reference date, and `1 ≤ N ≤ 364`, if the reference day is not
completed but each of the `N` previous days is, and day `ref - (N+1)` is not,
then the dashboard streak is exactly `N`: the incomplete reference day
neither breaks nor starts the streak.  (The claim's unbounded "every N ≥ 1"
fails at `N = 365` because the loop performs at most 365 iterations; see the
counterexample.) -/
theorem streak_skip_today_rule (logs : List HabitLogEntry) (ref : Int) (N : Nat)
    (hN1 : 1 ≤ N) (hcap : N ≤ 364)
    (htoday : isCompletedOn logs ref = false)
    (hrun : ∀ j : Nat, 1 ≤ j → j ≤ N → isCompletedOn logs (ref - (j : Int)) = true)
    (hstop : isCompletedOn logs (ref - ((N + 1 : Nat) : Int)) = false) :
    dashboardStreak logs ref = N := by
  rw [dashboardStreak_eq_calculateStreak, calculateStreak_eq_if,
    if_neg (by simp [htoday])]
  have hall : ∀ j, j < N → isCompletedOn logs (ref - ((1 + j : Nat) : Int)) = true := by
    intro j hj
    have e : (1 + j : Nat) = j + 1 := by omega
    rw [e]
    exact hrun (j + 1) (by omega) (by omega)
  have hstop' : N = 364 ∨ isCompletedOn logs (ref - ((1 + N : Nat) : Int)) = false := by
    rcases Nat.eq_or_lt_of_le hcap with h364 | h364
    · exact Or.inl h364
    · right
      have e : (1 + N : Nat) = N + 1 := by omega
      rw [e]
      exact hstop
  have h := streakGo_count (fun d => isCompletedOn logs d) ref 364 1 0 N
    (by omega) hcap hall hstop'
  simpa using h

/-- C1 counterexample: with reference day 365 not completed, days 364 down to
0 (i.e. `ref - 1` through `ref - 365`) all completed, and `ref - 366` not
completed, the claim as stated (with `N = 365`) predicts streak 365, but the
365-iteration cap makes the dashboard streak 364. -/
theorem streak_skip_today_cex :
    isCompletedOn (fullRun 365) 365 = false ∧
    ((List.range 365).all
      (fun (j : Nat) => isCompletedOn (fullRun 365) (365 - ((j + 1 : Nat) : Int)))) = true ∧
    isCompletedOn (fullRun 365) (365 - 366) = false ∧
    dashboardStreak (fullRun 365) 365 = 364 := by
  refine ⟨by rw [isCompletedOn_fullRun]; decide, ?_, by rw [isCompletedOn_fullRun]; decide, ?_⟩
  · rw [List.all_eq_true]
    intro j hj
    rw [List.mem_range] at hj
    simp only [isCompletedOn_fullRun, decide_eq_true_iff]
    push_cast
    omega
  · have h0 : isCompletedOn (fullRun 365) 365 = false := by
      rw [isCompletedOn_fullRun]; decide
    rw [dashboardStreak_eq_calculateStreak, calculateStreak_eq_if, if_neg (by simp [h0])]
    have hall : ∀ j, j < 364 → isCompletedOn (fullRun 365) (365 - ((1 + j : Nat) : Int)) = true := by
      intro j hj
      simp only [isCompletedOn_fullRun, decide_eq_true_iff]
      push_cast
      omega
    have h := streakGo_count (fun d => isCompletedOn (fullRun 365) d) 365 364 1 0 364
      (by omega) (le_refl 364) hall (Or.inl rfl)
    simpa using h

/-- C1 witness: a concrete two-day completed run before an unlogged reference
day, instantiating `streak_skip_today_rule` at `N = 2`. -/
theorem streak_skip_today_rule_witness :
    dashboardStreak [{ date := -1, completed := true }, { date := -2, completed := true }] 0 = 2 := by
  refine streak_skip_today_rule _ 0 2 (by omega) (by omega) (by decide) ?_ (by decide)
  intro j h1 h2
  interval_cases j <;> decide

/-- C4 (amended): fully completed run, within the 365-iteration cap.  For
every entry set, reference date and `N ≤ 364`, if every day in
`[ref - N, ref]` is completed and `ref - (N+1)` is not, the streak is
`N + 1`.  (The claim's unbounded "every N ≥ 0" fails at `N = 365` because of
the cap it itself mentions; see the counterexample.) -/
theorem streak_full_run_rule (logs : List HabitLogEntry) (ref : Int) (N : Nat)
    (hcap : N ≤ 364)
    (hrun : ∀ j : Nat, j ≤ N → isCompletedOn logs (ref - (j : Int)) = true)
    (hstop : isCompletedOn logs (ref - ((N + 1 : Nat) : Int)) = false) :
    calculateStreak logs ref = N + 1 := by
  have htoday : isCompletedOn logs ref = true := by
    have h := hrun 0 (Nat.zero_le N)
    simpa using h
  rw [calculateStreak_eq_if, if_pos htoday]
  have hall : ∀ j, j < N → isCompletedOn logs (ref - ((1 + j : Nat) : Int)) = true := by
    intro j hj
    have e : (1 + j : Nat) = j + 1 := by omega
    rw [e]
    exact hrun (j + 1) (by omega)
  have hstop' : N = 364 ∨ isCompletedOn logs (ref - ((1 + N : Nat) : Int)) = false := by
    rcases Nat.eq_or_lt_of_le hcap with h364 | h364
    · exact Or.inl h364
    · right
      have e : (1 + N : Nat) = N + 1 := by omega
      rw [e]
      exact hstop
  have h := streakGo_count (fun d => isCompletedOn logs d) ref 364 1 1 N
    (by omega) hcap hall hstop'
  rw [h]
  omega

/-- C4 counterexample: 366 consecutive completed days `0 .. 365` with
reference day 365 (so `N = 365`: every day in `[ref - 365, ref]` completed,
`ref - 366` not).  The claim predicts streak 366; the capped loop returns
365. -/
theorem streak_full_run_cex :
    ((List.range 366).all
      (fun (j : Nat) => isCompletedOn (fullRun 366) (365 - (j : Int)))) = true ∧
    isCompletedOn (fullRun 366) (365 - 366) = false ∧
    calculateStreak (fullRun 366) 365 = 365 := by
  refine ⟨?_, by rw [isCompletedOn_fullRun]; decide, ?_⟩
  · rw [List.all_eq_true]
    intro j hj
    rw [List.mem_range] at hj
    simp only [isCompletedOn_fullRun, decide_eq_true_iff]
    push_cast
    omega
  · have htoday : isCompletedOn (fullRun 366) 365 = true := by
      rw [isCompletedOn_fullRun]; decide
    rw [calculateStreak_eq_if, if_pos htoday]
    have hall : ∀ j, j < 364 → isCompletedOn (fullRun 366) (365 - ((1 + j : Nat) : Int)) = true := by
      intro j hj
      simp only [isCompletedOn_fullRun, decide_eq_true_iff]
      push_cast
      omega
    have h := streakGo_count (fun d => isCompletedOn (fullRun 366) d) 365 364 1 1 364
      (by omega) (le_refl 364) hall (Or.inl rfl)
    rw [h]

/-- C4 witness: a single completed entry on the reference day itself
(`N = 0`), instantiating `streak_full_run_rule`. -/
theorem streak_full_run_rule_witness :
    calculateStreak [{ date := 0, completed := true }] 0 = 0 + 1 := by
  refine streak_full_run_rule _ 0 0 (by omega) ?_ (by decide)
  intro j hj
  interval_cases j
  decide

/-- C5 (amended): a gap at `ref - 1` yields streak 1 when the reference day
itself is completed and streak 0 otherwise — so "0 regardless of older
history" holds only when the reference day is also incomplete.  (The claim's
unconditional "streak = 0" fails when `ref` is completed; see the
counterexample.) -/
theorem streak_gap_at_yesterday (logs : List HabitLogEntry) (ref : Int)
    (h : isCompletedOn logs (ref - 1) = false) :
    dashboardStreak logs ref = if isCompletedOn logs ref then 1 else 0 := by
  rw [dashboardStreak_eq_calculateStreak, calculateStreak_eq_if]
  have hstop : (0 : Nat) = 364 ∨ isCompletedOn logs (ref - ((1 + 0 : Nat) : Int)) = false := by
    right
    simpa using h
  by_cases hp : isCompletedOn logs ref = true
  · rw [if_pos hp, if_pos hp]
    have hcount := streakGo_count (fun d => isCompletedOn logs d) ref 364 1 1 0
      (by omega) (by omega) (by omega) hstop
    simpa using hcount
  · rw [if_neg hp, if_neg hp]
    have hcount := streakGo_count (fun d => isCompletedOn logs d) ref 364 1 0 0
      (by omega) (by omega) (by omega) hstop
    simpa using hcount

/-- C5 counterexample: one completed entry on the reference day itself, with
`ref - 1` incomplete.  The claim predicts streak 0; the dashboard streak is
1 (the completed reference day counts before the walk stops at the gap). -/
theorem streak_gap_at_yesterday_cex :
    isCompletedOn [{ date := 0, completed := true }] (0 - 1) = false ∧
    dashboardStreak [{ date := 0, completed := true }] 0 = 1 := by
  exact ⟨by decide, by decide⟩

/-- C5 witness: an old entry two days before the reference date, so both the
reference day and the day before are incomplete; `streak_gap_at_yesterday`
gives streak 0. -/
theorem streak_gap_at_yesterday_witness :
    dashboardStreak [{ date := 5, completed := true }] 7 = 0 := by
  have h := streak_gap_at_yesterday [{ date := 5, completed := true }] 7 (by decide)
  rw [h]
  decide

/-- C8 (amended): the streak is a non-negative integer, entries dated after
the reference date are ignored, an entry set with nothing on or before the
reference date gives streak 0, and the streak is at most the number of days
between the earliest entry dated on or before the reference date and the
reference date PLUS ONE (the inclusive day count).  (The claim's bound
without the `+ 1` — the exclusive day difference — fails; see the
counterexample.) -/
theorem streak_bound (logs : List HabitLogEntry) (ref : Int) :
    (0 : Int) ≤ (calculateStreak logs ref : Int) ∧
    calculateStreak logs ref = calculateStreak (logs.filter (fun l => l.date ≤ ref)) ref ∧
    (logs.filter (fun l => l.date ≤ ref) = [] → calculateStreak logs ref = 0) ∧
    (∀ m : Int, (∃ l, l ∈ logs.filter (fun l => l.date ≤ ref) ∧ l.date = m) →
      (∀ l, l ∈ logs.filter (fun l => l.date ≤ ref) → m ≤ l.date) →
      (calculateStreak logs ref : Int) ≤ ref - m + 1) := by
  have hIgnore : calculateStreak logs ref =
      calculateStreak (logs.filter (fun l => l.date ≤ ref)) ref := by
    show streakGo (fun d => isCompletedOn logs d) ref 365 0 0 =
      streakGo (fun d => isCompletedOn (logs.filter (fun l => l.date ≤ ref)) d) ref 365 0 0
    refine streakGo_congrOn _ _ ref (fun i => ?_) 365 0 0
    exact (isCompletedOn_filter_le logs ref (ref - (i : Int)) (by omega)).symm
  have hEmpty : logs.filter (fun l => l.date ≤ ref) = [] → calculateStreak logs ref = 0 := by
    intro hnil
    rw [hIgnore, hnil, calculateStreak_nil]
  have hBound : ∀ m : Int, (∃ l, l ∈ logs.filter (fun l => l.date ≤ ref) ∧ l.date = m) →
      (∀ l, l ∈ logs.filter (fun l => l.date ≤ ref) → m ≤ l.date) →
      (calculateStreak logs ref : Int) ≤ ref - m + 1 := by
    intro m hmem hmin
    obtain ⟨l0, hl0, hl0date⟩ := hmem
    have hmref : m ≤ ref := by
      have h := (List.mem_filter.mp hl0).2
      rw [← hl0date]
      exact of_decide_eq_true h
    have hkey : ∀ d : Int, isCompletedOn logs d = true → d ≤ ref → m ≤ d := by
      intro d hd hdref
      obtain ⟨l, hl, hlc, hldate⟩ := isCompletedOn_iff.mp hd
      have hlf : l ∈ logs.filter (fun l => l.date ≤ ref) :=
        List.mem_filter.mpr ⟨hl, by simp [hldate, hdref]⟩
      have h := hmin l hlf
      omega
    rw [calculateStreak_eq_if]
    by_cases hp : isCompletedOn logs ref = true
    · rw [if_pos hp]
      rcases streakGo_deepest (fun d => isCompletedOn logs d) ref 364 1 1 (by omega)
        with h | ⟨k, hk, heq, hpk⟩
      · rw [h]
        push_cast
        omega
      · rw [heq]
        have hdk : m ≤ ref - ((1 + k : Nat) : Int) := hkey _ hpk (by push_cast; omega)
        push_cast at hdk ⊢
        omega
    · rw [if_neg hp]
      rcases streakGo_deepest (fun d => isCompletedOn logs d) ref 364 1 0 (by omega)
        with h | ⟨k, hk, heq, hpk⟩
      · rw [h]
        push_cast
        omega
      · rw [heq]
        have hdk : m ≤ ref - ((1 + k : Nat) : Int) := hkey _ hpk (by push_cast; omega)
        push_cast at hdk ⊢
        omega
  exact ⟨Int.natCast_nonneg _, hIgnore, hEmpty, hBound⟩

/-- C8 counterexample: a single completed entry on the reference day itself.
The earliest entry is the reference day, so the claimed bound — the number of
days between the earliest entry's date and the reference date, i.e. 0 — is
exceeded: the streak is 1. -/
theorem streak_bound_cex :
    calculateStreak [{ date := 0, completed := true }] 0 = 1 ∧
    ¬ ((calculateStreak [{ date := 0, completed := true }] 0 : Int) ≤ 0 - 0) := by
  exact ⟨by decide, by decide⟩

/-- C8 witness: one completed entry the day before the reference date; the
amended inclusive bound instantiates to `streak ≤ 0 - (-1) + 1`. -/
theorem streak_bound_witness :
    (calculateStreak [{ date := -1, completed := true }] 0 : Int) ≤ 0 - (-1) + 1 := by
  refine (streak_bound [{ date := -1, completed := true }] 0).2.2.2 (-1)
    ⟨{ date := -1, completed := true }, by decide, rfl⟩ (by decide)

/-- A habit with its computed streak, as ranked by the dashboard stats route
(an element of `habitStreaks`; the presentation-only fields name/icon/color
do not enter the sort or the best-streak choice and are omitted). -/
structure HabitStreak where
  id : String
  streak : Nat
  deriving DecidableEq

/-- `Math.max(...habitStreaks.map((h) => h.streak), 0)` of the dashboard
stats route. -/
def bestStreak (hs : List HabitStreak) : Nat :=
  (hs.map (fun h => h.streak)).foldr max 0

/-- `habitStreaks.find((h) => h.streak === bestStreak)` of the dashboard
stats route, evaluated before the response object's sort, i.e. over the
original input order. -/
def bestStreakHabit (hs : List HabitStreak) : Option HabitStreak :=
  hs.find? (fun h => h.streak == bestStreak hs)

/-- The keep-order relation of the comparator
`habitStreaks.sort((a, b) => b.streak - a.streak)`: `a` may stay before `b`
exactly when the comparator value is ≤ 0, i.e. `b.streak ≤ a.streak`. -/
def streakGE (a b : HabitStreak) : Prop := b.streak ≤ a.streak

instance : DecidableRel streakGE := fun a b => Nat.decLe b.streak a.streak

instance : IsTotal HabitStreak streakGE := ⟨fun a b => Nat.le_total b.streak a.streak⟩

instance : IsTrans HabitStreak streakGE := ⟨fun _ _ _ hab hbc => le_trans hbc hab⟩

/-- The `habitStreaks.sort((a, b) => b.streak - a.streak)` of the dashboard
stats route.  ECMAScript requires `Array.prototype.sort` to be stable, and a
stable sort for a total preorder comparator has a unique output, so the sort
is modelled by the stable insertion sort over `streakGE`. -/
def sortByStreakDesc (hs : List HabitStreak) : List HabitStreak :=
  hs.insertionSort streakGE

/-- The dashboard page's Best Streak widget guard
(`stats?.streaks.best && stats.streaks.best.streak > 0`): a best habit is
displayed only when present and with a positive streak. -/
def shownBest (hs : List HabitStreak) : Option HabitStreak :=
  match bestStreakHabit hs with
  | none => none
  | some b => if 0 < b.streak then some b else none

lemma bestStreak_cons (x : HabitStreak) (xs : List HabitStreak) :
    bestStreak (x :: xs) = max x.streak (bestStreak xs) := rfl

lemma le_bestStreak {hs : List HabitStreak} {h : HabitStreak} (hmem : h ∈ hs) :
    h.streak ≤ bestStreak hs := by
  induction hs with
  | nil => cases hmem
  | cons x xs ih =>
    rw [bestStreak_cons]
    rcases List.mem_cons.mp hmem with rfl | hmem'
    · exact le_max_left _ _
    · exact le_trans (ih hmem') (le_max_right _ _)

/-- The maximum streak is attained by some habit of a non-empty list. -/
lemma bestStreak_attained (hs : List HabitStreak) :
    hs = [] ∨ ∃ h, h ∈ hs ∧ h.streak = bestStreak hs := by
  induction hs with
  | nil => exact Or.inl rfl
  | cons x xs ih =>
    right
    rw [bestStreak_cons]
    rcases ih with rfl | ⟨h, hmem, hstreak⟩
    · refine ⟨x, List.mem_cons_self x [], ?_⟩
      simp [bestStreak]
    · by_cases hle : bestStreak xs ≤ x.streak
      · exact ⟨x, List.mem_cons_self x xs, (max_eq_left hle).symm⟩
      · push_neg at hle
        exact ⟨h, List.mem_cons_of_mem x hmem,
          by rw [hstreak, max_eq_right (le_of_lt hle)]⟩

/-- The pre-sort `find` over the input order picks exactly the head of the
stable descending sort. -/
lemma bestStreakHabit_eq_head (hs : List HabitStreak) :
    bestStreakHabit hs = (sortByStreakDesc hs).head? := by
  induction hs with
  | nil => rfl
  | cons x xs ih =>
    have hperm : ∀ b, b ∈ sortByStreakDesc xs → b ∈ xs := fun b hb =>
      (List.perm_insertionSort streakGE xs).mem_iff.mp hb
    show List.find? (fun h => h.streak == bestStreak (x :: xs)) (x :: xs) =
      (List.orderedInsert streakGE x (sortByStreakDesc xs)).head?
    by_cases hx : bestStreak xs ≤ x.streak
    · have hbx : bestStreak (x :: xs) = x.streak := by
        rw [bestStreak_cons]
        exact max_eq_left hx
      rw [List.find?_cons_of_pos _ (by simp [hbx])]
      cases hS : sortByStreakDesc xs with
      | nil => simp [List.orderedInsert]
      | cons b S' =>
        have hb : streakGE x b := by
          have hbmem : b ∈ xs := hperm b (by rw [hS]; exact List.mem_cons_self b S')
          exact le_trans (le_bestStreak hbmem) hx
        simp [List.orderedInsert, hb]
    · push_neg at hx
      have hbx : bestStreak (x :: xs) = bestStreak xs := by
        rw [bestStreak_cons]
        exact max_eq_right (le_of_lt hx)
      have hpredx : (x.streak == bestStreak (x :: xs)) = false := by
        rw [hbx, beq_eq_false_iff_ne]
        exact Nat.ne_of_lt hx
      rw [List.find?_cons_of_neg _ (by simp [hpredx]), hbx]
      rw [show List.find? (fun h => h.streak == bestStreak xs) xs = (sortByStreakDesc xs).head? from ih]
      cases hS : sortByStreakDesc xs with
      | nil =>
        exfalso
        have hxs : xs = [] := by
          have hp := List.perm_insertionSort streakGE xs
          rw [show List.insertionSort streakGE xs = sortByStreakDesc xs from rfl, hS] at hp
          exact (hp.symm).eq_nil
        rw [hxs] at hx
        simp [bestStreak] at hx
      | cons b S' =>
        have hsorted : List.Sorted streakGE (b :: S') := by
          rw [← hS]
          exact List.sorted_insertionSort streakGE xs
        have hble : bestStreak xs ≤ b.streak := by
          rcases bestStreak_attained xs with hnil | ⟨h, hmem, hstreak⟩
          · rw [hnil] at hx
            simp [bestStreak] at hx
          · have hhS : h ∈ b :: S' := by
              rw [← hS]
              exact (List.perm_insertionSort streakGE xs).mem_iff.mpr hmem
            rcases List.mem_cons.mp hhS with rfl | hh'
            · omega
            · have hrel : h.streak ≤ b.streak := List.rel_of_sorted_cons hsorted h hh'
              omega
        have hnb : ¬ streakGE x b := by
          show ¬ (b.streak ≤ x.streak)
          omega
        simp [List.orderedInsert, hnb]

/-- Inserting into any list and filtering by an exact streak value: the
skipped prefix consists of strictly larger streaks, so the inserted element
lands at the front of its own streak class. -/
lemma filter_orderedInsert_streak (x : HabitStreak) (k : Nat) :
    ∀ S : List HabitStreak,
      (List.orderedInsert streakGE x S).filter (fun h => h.streak == k) =
        if x.streak = k then x :: S.filter (fun h => h.streak == k)
        else S.filter (fun h => h.streak == k) := by
  intro S
  induction S with
  | nil =>
    by_cases hx : x.streak = k
    · simp [List.orderedInsert, List.filter_cons, hx]
    · simp [List.orderedInsert, List.filter_cons, hx]
  | cons b S' ih =>
    by_cases hxb : streakGE x b
    · rw [List.orderedInsert, if_pos hxb]
      by_cases hx : x.streak = k
      · simp [List.filter_cons, hx]
      · simp [List.filter_cons, hx]
    · rw [List.orderedInsert, if_neg hxb]
      have hbx : x.streak < b.streak := by
        have h : ¬ (b.streak ≤ x.streak) := hxb
        omega
      by_cases hb : b.streak = k
      · have hxk : ¬ x.streak = k := by omega
        simp [List.filter_cons, hb, hxk, ih]
      · simp [List.filter_cons, hb, ih]

/-- Stability of the sort, phrased per streak class: the habits of any given
streak value appear in the sorted output exactly as they appear in the
input. -/
lemma filter_sortByStreakDesc (hs : List HabitStreak) (k : Nat) :
    (sortByStreakDesc hs).filter (fun h => h.streak == k) =
      hs.filter (fun h => h.streak == k) := by
  induction hs with
  | nil => rfl
  | cons x xs ih =>
    rw [show sortByStreakDesc (x :: xs) = List.orderedInsert streakGE x (sortByStreakDesc xs)
      from rfl]
    rw [filter_orderedInsert_streak x k (sortByStreakDesc xs)]
    by_cases hx : x.streak = k
    · rw [if_pos hx, ih, List.filter_cons]
      simp [hx]
    · rw [if_neg hx, ih, List.filter_cons]
      simp [hx]

/-- C6 (amended): the stats route's `best` (`bestStreakHabit`) is absent
exactly when the habit list is empty; on a non-empty list whose streaks are
all zero it still returns the first habit (with streak 0), refuting the
claim — but the dashboard page displays a best habit only under its
`streak > 0` guard, so the displayed best is absent whenever the list is
empty or every streak is zero. -/
theorem best_absent_on_zero (hs : List HabitStreak) :
    (bestStreakHabit hs = none ↔ hs = []) ∧
    ((hs = [] ∨ ∀ h, h ∈ hs → h.streak = 0) → shownBest hs = none) := by
  constructor
  · constructor
    · intro hnone
      rcases bestStreak_attained hs with h | ⟨h, hmem, hstreak⟩
      · exact h
      · exfalso
        rw [bestStreakHabit, List.find?_eq_none] at hnone
        exact hnone h hmem (by simp [hstreak])
    · intro h
      rw [h]
      rfl
  · rintro (rfl | hzero)
    · rfl
    · cases hbs : bestStreakHabit hs with
      | none => simp [shownBest, hbs]
      | some b =>
        have hb0 : b.streak = 0 := hzero b (List.mem_of_find?_eq_some hbs)
        simp [shownBest, hbs, hb0]

/-- C6 counterexample: a non-empty list in which every habit's streak is
zero.  The claim says `best` must be absent; the stats route's
`bestStreakHabit` returns the first habit anyway (streak 0). -/
theorem best_absent_on_zero_cex :
    ([{ id := "a", streak := 0 }] : List HabitStreak).all (fun h => h.streak == 0) = true ∧
    bestStreakHabit [{ id := "a", streak := 0 }] = some { id := "a", streak := 0 } := by
  exact ⟨by decide, by decide⟩

/-- C6 witness: the dashboard's displayed best on an all-zero singleton list
is absent, by `best_absent_on_zero`. -/
theorem best_absent_on_zero_witness :
    shownBest [{ id := "a", streak := 0 }] = none :=
  (best_absent_on_zero [{ id := "a", streak := 0 }]).2 (Or.inr (by decide))

/-- C7: the ranking sorts the same habits (a permutation) into non-increasing
streak order, keeps habits of equal streak in their original input order
(stability, phrased per streak class), and `best` equals the first element
of the sorted result; concretely, streaks `[5, 5, 3]` sort to `[5, 5, 3]`
with the first 5-streak habit as best. -/
theorem rank_by_streak_order :
    (∀ hs : List HabitStreak,
      (sortByStreakDesc hs).Perm hs ∧
      (sortByStreakDesc hs).Sorted (fun a b => b.streak ≤ a.streak) ∧
      (∀ k : Nat, (sortByStreakDesc hs).filter (fun h => h.streak == k) =
        hs.filter (fun h => h.streak == k)) ∧
      bestStreakHabit hs = (sortByStreakDesc hs).head?) ∧
    sortByStreakDesc
        [{ id := "a", streak := 5 }, { id := "b", streak := 5 }, { id := "c", streak := 3 }] =
      [{ id := "a", streak := 5 }, { id := "b", streak := 5 }, { id := "c", streak := 3 }] ∧
    bestStreakHabit
        [{ id := "a", streak := 5 }, { id := "b", streak := 5 }, { id := "c", streak := 3 }] =
      some { id := "a", streak := 5 } := by
  refine ⟨fun hs => ⟨List.perm_insertionSort streakGE hs,
    List.sorted_insertionSort streakGE hs,
    fun k => filter_sortByStreakDesc hs k,
    bestStreakHabit_eq_head hs⟩, by decide, by decide⟩

/-- The result record of the completion-rate computation:
`{ completed, total, percentage }`. -/
structure RateResult where
  completed : Nat
  total : Nat
  percentage : Int
  deriving DecidableEq

/-- The list of calendar days of the inclusive window `[s, e]`. -/
def windowDays (s e : Int) : List Int :=
  (List.range ((e + 1 - s).toNat)).map (fun (j : Nat) => s + (j : Int))

/-- Modelled from the spec: the engine operation
`completionRate(entries, windowStart, windowEnd)` of §4.1 has no single
generic implementation in the repository — the calendar widget's
`monthStats` and the dashboard's weekly stats are ad-hoc specializations to
month and week windows — so the window-generic operation follows the spec's
words: `total` is the inclusive count of days in the window, `completed`
counts the days of the window on which `isCompletedOn` holds, and
`percentage` is `completed / total * 100` rounded half away from zero, with
0 for an empty window.  The rounding is computed in exact integer
arithmetic, `(200 * completed + total) / (2 * total)`, which
`round_ratio_eq` below proves equal to the spec's
`round(completed / total * 100)` (round half up = half away from zero on
non-negative input, matching JavaScript `Math.round`). -/
def completionRate (logs : List HabitLogEntry) (windowStart windowEnd : Int) : RateResult :=
  let total : Nat := (windowEnd + 1 - windowStart).toNat
  let completed : Nat :=
    ((windowDays windowStart windowEnd).filter (fun d => isCompletedOn logs d)).length
  { completed := completed
    total := total
    percentage :=
      if total = 0 then 0
      else (200 * (completed : Int) + (total : Int)) / (2 * (total : Int)) }

lemma mem_windowDays {s e d : Int} : d ∈ windowDays s e ↔ s ≤ d ∧ d ≤ e := by
  simp only [windowDays, List.mem_map, List.mem_range]
  constructor
  · rintro ⟨j, hj, rfl⟩
    omega
  · rintro ⟨h1, h2⟩
    exact ⟨(d - s).toNat, by omega, by omega⟩

lemma windowDays_nodup (s e : Int) : (windowDays s e).Nodup := by
  refine List.Nodup.map ?_ (List.nodup_range _)
  intro a b hab
  have hab' : s + (a : Int) = s + (b : Int) := hab
  omega

/-- The `completed` count is the cardinality of the completed days of the
window, as a set. -/
lemma completionRate_completed_eq (logs : List HabitLogEntry) (s e : Int) :
    (completionRate logs s e).completed =
      ((Finset.Icc s e).filter (fun d => isCompletedOn logs d = true)).card := by
  show ((windowDays s e).filter (fun d => isCompletedOn logs d)).length = _
  have hnodup : ((windowDays s e).filter (fun d => isCompletedOn logs d)).Nodup :=
    (windowDays_nodup s e).filter _
  rw [← List.toFinset_card_of_nodup hnodup]
  congr 1
  ext d
  simp only [List.mem_toFinset, List.mem_filter, Finset.mem_filter, Finset.mem_Icc,
    mem_windowDays]

/-- Round-half-up of `c / t * 100` over the exact rationals equals the
integer-arithmetic form used in `completionRate`. -/
lemma round_ratio_eq (c t : Nat) (ht : t ≠ 0) :
    round ((c : ℚ) / (t : ℚ) * 100) = (200 * (c : Int) + (t : Int)) / (2 * (t : Int)) := by
  have htq : (t : ℚ) ≠ 0 := Nat.cast_ne_zero.mpr ht
  rw [round_eq]
  have h : (c : ℚ) / (t : ℚ) * 100 + 1 / 2 =
      ((200 * (c : Int) + (t : Int) : Int) : ℚ) / ((2 * t : ℕ) : ℚ) := by
    have h2 : ((2 * t : ℕ) : ℚ) = 2 * (t : ℚ) := by push_cast; ring
    rw [h2]
    push_cast
    field_simp
    ring
  rw [h, Rat.floor_intCast_div_natCast]
  push_cast
  rfl

/-- C3: the completionRate contract.  For every entry set and window
`[s, e]` with `s ≤ e`: `total` is the inclusive number of calendar days of
the window, `completed` is the number of days of the window on which
`isCompletedOn` holds, and `percentage` is
`round(completed / total * 100)` over the exact rationals (round half up,
which on these non-negative ratios is round half away from zero); when
`total = 0` (only possible for an empty window) the percentage is 0; and
concretely one completed entry on 2024-02-01 over the 29-day window
[2024-02-01, 2024-02-29] (epoch days 19754 to 19782) yields
`{completed := 1, total := 29, percentage := 3}`. -/
theorem completion_rate_contract :
    (∀ (logs : List HabitLogEntry) (s e : Int), s ≤ e →
      (completionRate logs s e).total = (e - s + 1).toNat ∧
      (completionRate logs s e).completed =
        ((Finset.Icc s e).filter (fun d => isCompletedOn logs d = true)).card ∧
      (completionRate logs s e).percentage =
        round (((completionRate logs s e).completed : ℚ) /
          ((completionRate logs s e).total : ℚ) * 100)) ∧
    (∀ (logs : List HabitLogEntry) (s e : Int), (completionRate logs s e).total = 0 →
      (completionRate logs s e).percentage = 0) ∧
    completionRate [{ date := 19754, completed := true }] 19754 19782 =
      { completed := 1, total := 29, percentage := 3 } := by
  have hper : ∀ (logs : List HabitLogEntry) (s e : Int),
      (completionRate logs s e).percentage =
        if (completionRate logs s e).total = 0 then 0
        else (200 * ((completionRate logs s e).completed : Int) +
          ((completionRate logs s e).total : Int)) /
          (2 * ((completionRate logs s e).total : Int)) := fun _ _ _ => rfl
  refine ⟨fun logs s e hse => ?_, fun logs s e h0 => ?_, by decide⟩
  · have htot : (completionRate logs s e).total = (e + 1 - s).toNat := rfl
    have hne : (completionRate logs s e).total ≠ 0 := by
      rw [htot]
      omega
    refine ⟨by rw [htot]; congr 1; ring, completionRate_completed_eq logs s e, ?_⟩
    rw [hper, if_neg hne]
    exact (round_ratio_eq _ _ hne).symm
  · rw [hper, if_pos h0]

/-- C3 witness: the contract applied to the empty entry set over the
one-day window `[0, 0]`. -/
theorem completion_rate_contract_witness :
    (completionRate [] 0 0).total = ((0 : Int) - 0 + 1).toNat ∧
    (completionRate [] 0 0).percentage =
      round (((completionRate [] 0 0).completed : ℚ) / ((completionRate [] 0 0).total : ℚ) * 100) := by
  have h := completion_rate_contract.1 [] 0 0 (by omega)
  exact ⟨h.1, h.2.2⟩

/-- C9: window monotonicity of completionRate.  Widening the window (from
`[s, e]` to `[s', e']` with `s' ≤ s ≤ e ≤ e'`) cannot decrease the
`completed` count and cannot decrease the `total` count. -/
theorem completion_rate_monotone (logs : List HabitLogEntry) (s e s' e' : Int)
    (hs : s' ≤ s) (hse : s ≤ e) (he : e ≤ e') :
    (completionRate logs s e).completed ≤ (completionRate logs s' e').completed ∧
    (completionRate logs s e).total ≤ (completionRate logs s' e').total := by
  constructor
  · rw [completionRate_completed_eq, completionRate_completed_eq]
    exact Finset.card_le_card
      (Finset.filter_subset_filter _ (Finset.Icc_subset_Icc hs he))
  · show (e + 1 - s).toNat ≤ (e' + 1 - s').toNat
    omega

/-- C9 witness: monotonicity applied to a one-entry log with the window
`[0, 0]` widened to `[-1, 1]`. -/
theorem completion_rate_monotone_witness :
    (completionRate [{ date := 0, completed := true }] 0 0).completed ≤
      (completionRate [{ date := 0, completed := true }] (-1) 1).completed ∧
    (completionRate [{ date := 0, completed := true }] 0 0).total ≤
      (completionRate [{ date := 0, completed := true }] (-1) 1).total :=
  completion_rate_monotone [{ date := 0, completed := true }] 0 0 (-1) 1
    (by omega) (by omega) (by omega)

/-- A stored habit-log row for one `(habitId, date)` key: the `completed`
flag and the optional free-text note (`none` models a NULL/absent note). -/
structure StoredLog where
  completed : Bool
  note : Option String
  deriving DecidableEq

/-- The body-dependent core of `POST /api/habits/[habitId]/log`, acting on
the (at most one) stored row for the normalized request date:

```
if (existingLog) {
  if (completed === false && !note) { delete; log = null; }
  else { update { completed: completed ?? !existingLog.completed,
                  ...(note !== undefined && { note }) }; }
} else {
  create { completed: completed ?? true, note };
}
```

`completed = none` / `note = none` model an absent (undefined) body field;
`note = some ""` models an empty-string note, which is falsy in the
JavaScript `!note` test.  (A JSON `null` note behaves like the empty string
for the delete test and is outside this model.) -/
def postLog (existing : Option StoredLog) (completed : Option Bool)
    (note : Option String) : Option StoredLog :=
  match existing with
  | some existingLog =>
    if completed = some false ∧ (note = none ∨ note = some "") then
      none
    else
      some { completed := completed.getD (!existingLog.completed)
             note := match note with
                     | some s => some s
                     | none => existingLog.note }
  | none =>
    some { completed := completed.getD true, note := note }

/-- The date normalization of the log route
(`logDate.setUTCHours(0, 0, 0, 0)` on a millisecond timestamp): floor the
timestamp to the start of its UTC day. -/
def normalizeToUTCMidnight (ms : Int) : Int := ms - ms % 86400000

/-- The log route: normalize the request date, look up the stored row under
the normalized key, and apply the toggle/update/create/delete logic;
returns the key used and the resulting stored row (`none` = deleted or
still absent). -/
def routePostLog (store : Int → Option StoredLog) (dateMs : Int)
    (completed : Option Bool) (note : Option String) : Int × Option StoredLog :=
  let logDate := normalizeToUTCMidnight dateMs
  (logDate, postLog (store logDate) completed note)

/-- The habits page's `handleToggleDay` request body: only the date is sent,
so both the `completed` and the `note` field are absent. -/
def handleToggleDayBody : Option Bool × Option String := (none, none)

/-- C2 (amended): the compaction rule holds exactly for the explicit
incomplete-update path — a POST that explicitly sends `completed = false`
with no note (absent or empty) deletes an existing row instead of storing
`completed = false` — but it is not an invariant of every toggle POST: a
POST with explicit `completed = false` on a day with no row creates a row
with `completed = false` and no note, and a toggle POST omitting
`completed` on a completed no-note day stores `completed = false` with no
note (see the counterexample). -/
theorem habit_log_compaction :
    (∀ (log : StoredLog) (n : Option String), (n = none ∨ n = some "") →
      postLog (some log) (some false) n = none) ∧
    postLog none (some false) none = some { completed := false, note := none } ∧
    postLog (some { completed := true, note := none }) none none =
      some { completed := false, note := none } := by
  refine ⟨fun log n h => ?_, by decide, by decide⟩
  simp only [postLog]
  rw [if_pos ⟨trivial, h⟩]

/-- C2 counterexample: the plain day-toggle (no `completed`, no `note`) on a
day whose row is `completed = true` with no note stores
`completed = false` with no note — the state the claimed invariant says can
never be stored. -/
theorem habit_log_compaction_cex :
    postLog (some { completed := true, note := none }) none none =
      some { completed := false, note := none } := by
  decide

/-- C2 witness: the explicit delete path applied to a row with a note. -/
theorem habit_log_compaction_witness :
    postLog (some { completed := true, note := some "felt great" }) (some false) none = none :=
  habit_log_compaction.1 { completed := true, note := some "felt great" } none (Or.inl rfl)

/-- C10: toggle-default semantics of the log route.  A POST that omits
`completed` (the habits page's day-toggle body) acts on the date normalized
to UTC midnight; if no row exists for that normalized date it creates one
with `completed = true`, and otherwise it replaces the row's `completed`
flag with its negation, keeping the row's note. -/
theorem toggle_default_semantics (store : Int → Option StoredLog) (dateMs : Int) :
    (routePostLog store dateMs handleToggleDayBody.1 handleToggleDayBody.2).1 =
      normalizeToUTCMidnight dateMs ∧
    (store (normalizeToUTCMidnight dateMs) = none →
      (routePostLog store dateMs handleToggleDayBody.1 handleToggleDayBody.2).2 =
        some { completed := true, note := none }) ∧
    (∀ log : StoredLog, store (normalizeToUTCMidnight dateMs) = some log →
      (routePostLog store dateMs handleToggleDayBody.1 handleToggleDayBody.2).2 =
        some { completed := !log.completed, note := log.note }) := by
  refine ⟨rfl, fun h => ?_, fun log h => ?_⟩
  · show postLog (store (normalizeToUTCMidnight dateMs)) none none = _
    rw [h]
    rfl
  · show postLog (store (normalizeToUTCMidnight dateMs)) none none = _
    rw [h]
    simp only [postLog]
    rw [if_neg (by simp)]
    rfl

/-- C10 witness: toggling an unlogged day creates a completed entry, by
`toggle_default_semantics` with an empty store. -/
theorem toggle_default_semantics_witness :
    (routePostLog (fun _ => none) 86400123 handleToggleDayBody.1 handleToggleDayBody.2).2 =
      some { completed := true, note := none } :=
  (toggle_default_semantics (fun _ => none) 86400123).2.1 rfl
